import Mathlib

/-!
A shallow embedding of `src/js/app.js` (the single-day calendar event layout
algorithm) and proofs about it.

Modelling conventions:
* JS numbers that the program ever stores in `start`, `end`, `left`, `width`
  are integers here (`Int`); the only arithmetic the source performs on them is
  `+`, `-`, `Math.max` and `(maxWidth / n) << 0`, the last being truncation
  toward zero of an integer quotient, embedded as `Int.tdiv`.
* The JS field `end` is named `stop` (`end` is a Lean keyword).
* JS arrays of event objects become `List` of records; in-place mutation
  becomes explicit state passing (each JS function that mutates its argument
  array is embedded as a function returning the new list).
* The `for (; (event = arr[i]); ++i)` idiom stops at the first falsy element;
  for the caller-supplied input array (which may contain `null` holes) the
  input element type is `Option IEvent` and the idiom is `takeTruthy`.
  Working events are always objects (truthy), so loops over working arrays
  run over the whole list.
-/

/-- A caller-supplied input event: `{id, start, end}`. -/
structure IEvent where
  id : Int
  start : Int
  stop : Int
deriving Repr, DecidableEq

/-- A working event as built by `cloneEvents` (app.js lines 74-83):
`{id, start, end, collisions, left, width, hasEventUnder, topEventId}`. -/
structure WEvent where
  id : Int
  start : Int
  stop : Int
  collisions : List Nat
  left : Int
  width : Int
  hasEventUnder : Bool
  topEventId : Option Int
deriving Repr, DecidableEq

instance : Inhabited WEvent := ⟨⟨0, 0, 0, [], 0, 0, false, none⟩⟩

/-- An output event as built by `normalizeEvents` (app.js lines 106-113):
`{id, start, end, left, width, top}`. -/
structure OEvent where
  id : Int
  start : Int
  stop : Int
  left : Int
  width : Int
  top : Int
deriving Repr, DecidableEq

/-- `isEventsCollides` (app.js line 343-345):
`(a.end > b.start && a.end <= b.end) || (a.start >= b.start && a.start < b.end)
 || (a.start < b.start && a.end > b.end)`. -/
def isEventsCollides (a b : WEvent) : Bool :=
  (a.stop > b.start && a.stop ≤ b.stop) || (a.start ≥ b.start && a.start < b.stop)
    || (a.start < b.start && a.stop > b.stop)

/-- `getLeftCollisionsCount` (app.js lines 379-387): counts the longest prefix
of `_collisions` whose entries are `< _eventIdx` (the JS `while` reads
`undefined < i`, which is falsy, past the end of the array). -/
def getLeftCollisionsCount : List Nat → Nat → Nat
  | [], _ => 0
  | c :: cs, idx => if c < idx then getLeftCollisionsCount cs idx + 1 else 0

/-- The pair check of `updateCollisions` (app.js line 363): the JS double
loop visits each pair once with the lower index first, so indices `i` and `j`
are linked iff `isEventsCollides(_events[min i j], _events[max i j])`. -/
def collPred (evs : List WEvent) (i j : Nat) : Bool :=
  if i < j then isEventsCollides (evs.getD i default) (evs.getD j default)
  else if j < i then isEventsCollides (evs.getD j default) (evs.getD i default)
  else false

/-- `updateCollisions` (app.js lines 352-369).  The JS double loop pushes
indices in ascending order into both lists of a linked pair, so the final
list of event `k` is the ascending list of all `m` with `collPred k m`. -/
def updateCollisions (evs : List WEvent) : List WEvent :=
  evs.mapIdx fun i e =>
    { e with collisions := (List.range evs.length).filter fun j => collPred evs i j }

/-- The `for (; (event = _events[i]); ++i)` idiom on the array of the caller
(app.js line 73): iterate until the first falsy (`none`) element. -/
def takeTruthy : List (Option IEvent) → List IEvent
  | [] => []
  | none :: _ => []
  | some e :: rest => e :: takeTruthy rest

/-- `cloneEvents` (app.js lines 64-87): fresh working records for the truthy
prefix of the input. -/
def cloneEvents (l : List (Option IEvent)) : List WEvent :=
  (takeTruthy l).map fun e =>
    { id := e.id, start := e.start, stop := e.stop, collisions := [],
      left := 0, width := 0, hasEventUnder := false, topEventId := none }

/-- `normalizeEvents` (app.js lines 96-117); working events are always truthy
objects, so the loop maps the whole list.  `top := event.start`. -/
def normalizeEvents (evs : List WEvent) : List OEvent :=
  evs.map fun e =>
    { id := e.id, start := e.start, stop := e.stop, left := e.left,
      width := e.width, top := e.start }

/-- `compareStartEndTime` (app.js lines 127-133) as the "may go first"
predicate of a stable merge sort: `eventLE a b` iff `compareStartEndTime`
would not strictly order `b` before `a`, i.e. ascending `start`, ties broken
by descending `end`. -/
def eventLE (a b : WEvent) : Bool :=
  a.start < b.start || (a.start == b.start && b.stop ≤ a.stop)

/-- `events.sort(compareStartEndTime)` (app.js line 42), embedded as a stable
merge sort under `eventLE`. -/
def sortEvents (evs : List WEvent) : List WEvent :=
  evs.mergeSort eventLE

theorem length_updateCollisions (evs : List WEvent) :
    (updateCollisions evs).length = evs.length := by
  simp [updateCollisions]

/-- The inner search of `getEventsUnder` (app.js lines 157-177): the first
`j ∈ [start, i)` whose event neither collides with `currentEvent` nor already
has an event under it. -/
def findLeftSlot (evs : List WEvent) (current : WEvent) (j i : Nat) : Option Nat :=
  if j < i then
    let leftEvent := evs.getD j default
    if !isEventsCollides leftEvent current && !leftEvent.hasEventUnder then some j
    else findLeftSlot evs current (j + 1) i
  else none
termination_by i - j

/-- The outer loop of `getEventsUnder` (app.js lines 154-181).  On an
extraction the JS code splices out index `i`, tags the removed event with the
id of the matching left event, flags the left event (at `j < i`, so its position is
unaffected by the splice), recomputes collisions, and re-examines the same
index (`--i` followed by `++i` of the loop). -/
def guLoop (evs under : List WEvent) (start i : Nat) : List WEvent × List WEvent :=
  if h : i < evs.length then
    let current := evs.get ⟨i, h⟩
    if getLeftCollisionsCount current.collisions i ≠ 0 then
      match findLeftSlot evs current start i with
      | some j =>
          let leftEvent := evs.getD j default
          let evs1 := updateCollisions
            ((evs.eraseIdx i).set j { leftEvent with hasEventUnder := true })
          guLoop evs1 (under ++ [{ current with topEventId := some leftEvent.id }]) start i
      | none => guLoop evs under start (i + 1)
    else
      guLoop evs under i (i + 1)
  else (evs, under)
termination_by 2 * evs.length - i
decreasing_by
  · have h1 : i < evs.length := h
    have h2 : ((evs.eraseIdx i).set j { evs.getD j default with hasEventUnder := true }).length
        = evs.length - 1 := by
      rw [List.length_set, List.length_eraseIdx_of_lt h1]
    rw [length_updateCollisions, h2]; omega
  · omega
  · omega

/-- `getEventsUnder` (app.js lines 145-189), returning the shrunk primary
array together with the extracted "under" array (the JS function mutates the
former in place and returns the latter).  Collisions of the under array are
recomputed at the end when it is nonempty (app.js lines 184-186). -/
def getEventsUnder (evs : List WEvent) : List WEvent × List WEvent :=
  let p := guLoop evs [] 0 0
  (p.1, if p.2.length ≠ 0 then updateCollisions p.2 else p.2)

/-- The retro-update loop of `setLayOutParams` (app.js lines 318-327) over
`k ∈ [start, i)`, threading the running `left`.  Per iteration: clamp `left`
down to `_events[start].left` when `k == start`, write `width` and
`Math.max(left, minLeft)` into event `k`, then advance `left` by the width
just written. -/
def slpInner (evs : List WEvent) (minLeft width : Int) (startIdx k i : Nat)
    (left : Int) : List WEvent × Int :=
  if k < i then
    let left1 := if k = startIdx ∧ (evs.getD startIdx default).left < left
      then (evs.getD startIdx default).left else left
    let ek := evs.getD k default
    slpInner (evs.set k { ek with width := width, left := max left1 minLeft })
      minLeft width startIdx (k + 1) i (left1 + width)
  else (evs, left)
termination_by i - k

theorem slpInner_length (evs : List WEvent) (minLeft width : Int) (startIdx k i : Nat)
    (left : Int) : (slpInner evs minLeft width startIdx k i left).1.length = evs.length := by
  induction evs, minLeft, width, startIdx, k, i, left using slpInner.induct with
  | case1 evs minLeft width startIdx k i left hk left1 ek ih =>
    rw [slpInner, if_pos hk]
    exact ih.trans (by simp)
  | case2 evs minLeft width startIdx k i left hk =>
    rw [slpInner, if_neg hk]

/-- The main loop of `setLayOutParams` (app.js lines 307-332).  An event with
no left collisions opens a group (`left = minLeft`, `width = maxWidth`, group
marker reset); otherwise the group is re-balanced: `left` starts from the left
of the first collision partner, `width = (maxWidth / (i - start + 1)) << 0`
(truncation toward zero, `Int.tdiv` here), the members `[start, i)` are
retro-updated, and the current event is placed at the resulting `left`. -/
def slpLoop (evs : List WEvent) (minLeft maxWidth : Int) (start i : Nat) : List WEvent :=
  if h : i < evs.length then
    let event := evs.get ⟨i, h⟩
    if getLeftCollisionsCount event.collisions i = 0 then
      slpLoop (evs.set i { event with left := minLeft, width := maxWidth })
        minLeft maxWidth i (i + 1)
    else
      let left0 := (evs.getD (event.collisions.headD 0) default).left
      let width := Int.tdiv maxWidth ((i : Int) - (start : Int) + 1)
      let p := slpInner evs minLeft width start start i left0
      slpLoop (p.1.set i { event with left := p.2, width := width })
        minLeft maxWidth start (i + 1)
  else evs
termination_by evs.length - i
decreasing_by
  · simp only [List.length_set]; omega
  · simp only [List.length_set, slpInner_length]; omega

/-- `setLayOutParams` (app.js lines 298-333). -/
def setLayOutParams (evs : List WEvent) (minLeft maxWidth : Int) : List WEvent :=
  slpLoop evs minLeft maxWidth 0 0

/-- A Column Group of `processEventsUnder` (app.js lines 222-227): the JS
object `{items, left, width}`.  Items are recorded as indices into the
under array (the JS code pushes object references; the write-back in
`applyGroup` restores the aliasing). -/
structure EGroup where
  itemIdxs : List Nat
  left : Int
  width : Int
deriving Repr, DecidableEq

instance : Inhabited EGroup := ⟨⟨[], 0, 0⟩⟩

/-- Lookup in the `eventsGroups` JS object, keyed by `topEventId`
(`none` plays the role of the JS key `"null"`). -/
def findGroup (groups : List (Option Int × EGroup)) (k : Option Int) : Option EGroup :=
  (groups.find? fun p => p.1 == k).map Prod.snd

/-- Write the group of a key in the `eventsGroups` JS object, preserving key
insertion order. -/
def setGroup (groups : List (Option Int × EGroup)) (k : Option Int) (g : EGroup) :
    List (Option Int × EGroup) :=
  if groups.any fun p => p.1 == k then
    groups.map fun p => if p.1 == k then (k, g) else p
  else groups ++ [(k, g)]

/-- The `eventIdxById` hash of `processEventsUnder` (app.js lines 211-213):
forward assignment means the last occurrence of a duplicated id wins. -/
def eventIdxById (evs : List WEvent) (v : Int) : Option Nat :=
  (evs.mapIdx fun i e => (i, e.id)).foldl
    (fun acc p => if p.2 == v then some p.1 else acc) none

/-- The `leftCollisionsCount` branch of `processEventsUnder` (app.js lines
250-257): scan all earlier under events `j ∈ [0, i)` (no break), and for each
that collides with the current event and whose group sits strictly left of the
current group, move `left` past the right edge of that group and recompute `width`
from the left edge of the anchor. -/
def peuLeftGroupScan (under : List WEvent) (groups : List (Option Int × EGroup))
    (gLeft anchorLeft : Int) (event : WEvent) (j i : Nat) (left width : Int) : Int × Int :=
  if j < i then
    let uj := under.getD j default
    let og := (findGroup groups uj.topEventId).getD default
    if isEventsCollides uj event && og.left < gLeft then
      let left1 := og.left + og.width
      peuLeftGroupScan under groups gLeft anchorLeft event (j + 1) i
        left1 (width + (anchorLeft - left1))
    else
      peuLeftGroupScan under groups gLeft anchorLeft event (j + 1) i left width
  else (left, width)
termination_by i - j

/-- The downward primary scan of `processEventsUnder` (app.js lines 260-266):
first index `< topIdx`, scanning from `topIdx - 1` toward `0`, whose event
collides with the given event. -/
def findDown (evs : List WEvent) (event : WEvent) : Nat → Option Nat
  | 0 => none
  | j + 1 => if isEventsCollides (evs.getD j default) event then some j else
      findDown evs event j

/-- The rightward primary scan of `processEventsUnder` (app.js lines 270-276):
first index `≥ j` whose event collides with the given event. -/
def findUp (evs : List WEvent) (event : WEvent) (j : Nat) : Option Nat :=
  if h : j < evs.length then
    if isEventsCollides (evs.get ⟨j, h⟩) event then some j else findUp evs event (j + 1)
  else none
termination_by evs.length - j

/-- One iteration of the grouping loop of `processEventsUnder` (app.js lines
216-281) for the under event at index `i`, returning the updated groups.
Where the JS code would dereference a missing anchor (and crash), the model
totalizes with `default` values; those paths are unreachable in an actual
`layOutDay` run, where the `topEventId` of every under event names a primary
event. -/
def peuStep (under evs : List WEvent) (groups : List (Option Int × EGroup))
    (i : Nat) (event : WEvent) : List (Option Int × EGroup) :=
  let eventAtTopId := event.topEventId
  let eventAtTopIdx : Option Nat := eventAtTopId.bind (eventIdxById evs)
  let eventAtTop : WEvent := (eventAtTopIdx.bind fun k => evs.get? k).getD default
  let groups1 := if (findGroup groups eventAtTopId).isNone then
      setGroup groups eventAtTopId ⟨[], eventAtTop.left, eventAtTop.width⟩
    else groups
  let eventGroup := (findGroup groups1 eventAtTopId).getD default
  let eventGroup1 := { eventGroup with itemIdxs := eventGroup.itemIdxs ++ [i] }
  let groups2 := setGroup groups1 eventAtTopId eventGroup1
  let nextEvent? := under.get? (i + 1)
  let hasTopCollisionAtRight :=
    match eventAtTopIdx.bind fun k => evs.get? (k + 1), nextEvent? with
    | some topRight, some nextEvent =>
        nextEvent.topEventId == some topRight.id && isEventsCollides nextEvent event
    | _, _ => false
  if eventAtTop.collisions.length ≠ 0 && !hasTopCollisionAtRight then
    let lcc := getLeftCollisionsCount event.collisions i
    let lw : Int × Int :=
      if lcc ≠ 0 then
        peuLeftGroupScan under groups2 eventGroup1.left eventAtTop.left event 0 i
          eventAtTop.left eventAtTop.width
      else
        match eventAtTopIdx with
        | some topIdx =>
          match findDown evs event topIdx with
          | some j =>
              let ej := evs.getD j default
              let left1 := ej.left + ej.width
              (left1, eventAtTop.width + (eventAtTop.left - left1))
          | none => (eventAtTop.left, eventAtTop.width)
        | none => (eventAtTop.left, eventAtTop.width)
    let lw2 : Int × Int :=
      match eventAtTopIdx with
      | some topIdx =>
        match findUp evs event (topIdx + 1) with
        | some j => (lw.1, (evs.getD j default).left - lw.1)
        | none => lw
      | none => lw
    setGroup groups2 eventAtTopId { eventGroup1 with left := lw2.1, width := lw2.2 }
  else groups2

/-- The grouping loop of `processEventsUnder` (app.js lines 216-281). -/
def peuGroupsGo (under evs : List WEvent) (i : Nat)
    (groups : List (Option Int × EGroup)) : List (Option Int × EGroup) :=
  if h : i < under.length then
    peuGroupsGo under evs (i + 1) (peuStep under evs groups i (under.get ⟨i, h⟩))
  else groups
termination_by under.length - i

/-- The Column Groups built by `processEventsUnder` for a given under array
and primary array. -/
def peuGroups (under evs : List WEvent) : List (Option Int × EGroup) :=
  peuGroupsGo under evs 0 []

/-- One call `setLayOutParams(group.items, group.left, group.width)` of the
final loop of `processEventsUnder` (app.js lines 284-288): project the
items of the group out of the under array, lay them out, and write them back at
their recorded positions. -/
def applyGroup (under : List WEvent) (g : EGroup) : List WEvent :=
  let items := g.itemIdxs.map fun k => under.getD k default
  let items1 := setLayOutParams items g.left g.width
  (g.itemIdxs.zip items1).foldl (fun u p => u.set p.1 p.2) under

/-- `processEventsUnder` (app.js lines 198-289), returning the updated under
array.  The JS `for in` over `eventsGroups` may enumerate integer-like keys
in ascending numeric order rather than insertion order, but each under index
belongs to exactly one group (each `i` is pushed to exactly one group in the
grouping pass), so the write-backs of distinct groups touch disjoint
positions and the enumeration order does not affect the result; the model
uses insertion order. -/
def processEventsUnder (under evs : List WEvent) : List WEvent :=
  (peuGroups under evs).foldl (fun u p => applyGroup u p.2) under

/-- `layOutDay` (app.js lines 30-55) on an array argument: clone, sort,
build collisions, extract under events, lay out the primary events with
`MIN_LEFT = 10` and `MAX_WIDTH = 620`, resolve the under events, concatenate
and normalize. -/
def layOutDay (l : List (Option IEvent)) : List OEvent :=
  let events0 := updateCollisions (sortEvents (cloneEvents l))
  let p := getEventsUnder events0
  let events1 := setLayOutParams p.1 10 620
  let under1 := processEventsUnder p.2 events1
  normalizeEvents (events1 ++ under1)

/-- `layOutDay` on an array all of whose elements are event objects. -/
def layOutDayW (l : List IEvent) : List OEvent :=
  layOutDay (l.map some)

/-- The JS argument of `layOutDay`: either an array (of possibly-null event
slots) or a non-array value. -/
inductive JSInput where
  | arr (l : List (Option IEvent))
  | notArr
deriving Repr, DecidableEq

/-- `layOutDay` including its argument check (app.js lines 36-38): a
non-array argument throws an Error with the message Events must be an array before any
output is produced. -/
def layOutDayJS : JSInput → Except String (List OEvent)
  | .notArr => .error "Events must be an array"
  | .arr l => .ok (layOutDay l)

/-- Well-formedness of an input event as the spec states it: integer minutes
with `0 ≤ start < end ≤ 720`. -/
def wellFormed (e : IEvent) : Prop :=
  0 ≤ e.start ∧ e.start < e.stop ∧ e.stop ≤ 720

instance (e : IEvent) : Decidable (wellFormed e) := by
  unfold wellFormed; infer_instance

/-- The overlap predicate of app.js lines 343-345, read on output records
(used to state the no-overlap property of the spec). -/
def collidesOut (a b : OEvent) : Bool :=
  (a.stop > b.start && a.stop ≤ b.stop) || (a.start ≥ b.start && a.start < b.stop)
    || (a.start < b.start && a.stop > b.stop)

/-- The horizontal spans `[left, left+width)` of two output records
intersect. -/
def spansOverlap (a b : OEvent) : Prop :=
  max a.left b.left < min (a.left + a.width) (b.left + b.width)

instance (a b : OEvent) : Decidable (spansOverlap a b) := by
  unfold spansOverlap; infer_instance

theorem isEventsCollides_eq_intersect (a b : WEvent)
    (ha : a.start < a.stop) (hb : b.start < b.stop) :
    isEventsCollides a b = true ↔ (a.start < b.stop ∧ b.start < a.stop) := by
  simp only [isEventsCollides, Bool.or_eq_true, Bool.and_eq_true, decide_eq_true_eq]
  omega

theorem isEventsCollides_symm (a b : WEvent)
    (ha : a.start < a.stop) (hb : b.start < b.stop) :
    isEventsCollides a b = isEventsCollides b a := by
  rw [Bool.eq_iff_iff]
  simp only [isEventsCollides, Bool.or_eq_true, Bool.and_eq_true, decide_eq_true_eq]
  omega

/-- C5: for well-formed events (start < end), `isEventsCollides` decides
exactly intersection of the half-open intervals [a.start, a.end) and
[b.start, b.end), and it is symmetric. -/
theorem isEventsCollides_iff_intersect (a b : WEvent)
    (ha : a.start < a.stop) (hb : b.start < b.stop) :
    (isEventsCollides a b = true ↔ (a.start < b.stop ∧ b.start < a.stop)) ∧
    isEventsCollides a b = isEventsCollides b a :=
  ⟨isEventsCollides_eq_intersect a b ha hb, isEventsCollides_symm a b ha hb⟩

/-- Witness for C5 at the concrete pair ([0,60), [30,90)). -/
theorem isEventsCollides_iff_intersect_witness :
    (isEventsCollides ⟨1, 0, 60, [], 0, 0, false, none⟩ ⟨2, 30, 90, [], 0, 0, false, none⟩ = true ↔
      ((0 : Int) < 90 ∧ (30 : Int) < 60)) ∧
    isEventsCollides ⟨1, 0, 60, [], 0, 0, false, none⟩ ⟨2, 30, 90, [], 0, 0, false, none⟩ =
      isEventsCollides ⟨2, 30, 90, [], 0, 0, false, none⟩ ⟨1, 0, 60, [], 0, 0, false, none⟩ :=
  isEventsCollides_iff_intersect _ _ (by decide) (by decide)

/-- C7: the entry point errors exactly on non-array arguments, and on any
array argument it succeeds with the layout, producing no partial output on
the error path. -/
theorem layOutDayJS_error_iff :
    (∀ x, (∃ msg, layOutDayJS x = .error msg) ↔ x = .notArr) ∧
    (∀ l, layOutDayJS (.arr l) = .ok (layOutDay l)) := by
  constructor
  · intro x; cases x <;> simp [layOutDayJS]
  · intro l; rfl

theorem takeTruthy_map_some (l : List IEvent) : takeTruthy (l.map some) = l := by
  induction l with
  | nil => rfl
  | cons a t ih => simp [takeTruthy, ih]

theorem takeTruthy_falsy (l1 : List IEvent) (l2 : List (Option IEvent)) :
    takeTruthy (l1.map some ++ none :: l2) = l1 := by
  induction l1 with
  | nil => rfl
  | cons a t ih => simp [takeTruthy, ih]

/-- C10: a falsy (null) element in the input array silently truncates the
input: the layout equals the layout of the prefix before the falsy element,
and no error is raised. -/
theorem layOutDay_falsy_prefix (l1 : List IEvent) (l2 : List (Option IEvent)) :
    layOutDay (l1.map some ++ none :: l2) = layOutDayW l1 ∧
    layOutDayJS (.arr (l1.map some ++ none :: l2)) = .ok (layOutDayW l1) := by
  have h : cloneEvents (l1.map some ++ none :: l2) = cloneEvents (l1.map some) := by
    unfold cloneEvents
    rw [takeTruthy_falsy, takeTruthy_map_some]
  have h2 : layOutDay (l1.map some ++ none :: l2) = layOutDayW l1 := by
    unfold layOutDayW layOutDay
    rw [h]
  exact ⟨h2, by rw [show layOutDayJS (.arr (l1.map some ++ none :: l2)) =
    .ok (layOutDay (l1.map some ++ none :: l2)) from rfl, h2]⟩

unseal List.merge List.mergeSort guLoop slpLoop slpInner findLeftSlot findUp peuLeftGroupScan peuGroupsGo in
/-- C1: the no-overlap property fails on the code: on this well-formed
four-event input, the output records for the events [180,240) and [120,240)
collide in time but their horizontal spans [10,630) and [10,320) overlap
(the nested event is capped only against the first colliding primary
neighbour and never re-checked against later full-width columns). -/
theorem layOutDay_no_overlap_failure :
    (∀ e ∈ [(⟨1, 180, 240⟩ : IEvent), ⟨2, 120, 240⟩, ⟨3, 60, 180⟩, ⟨4, 0, 120⟩], wellFormed e) ∧
    ∃ a ∈ layOutDayW [⟨1, 180, 240⟩, ⟨2, 120, 240⟩, ⟨3, 60, 180⟩, ⟨4, 0, 120⟩],
      ∃ b ∈ layOutDayW [⟨1, 180, 240⟩, ⟨2, 120, 240⟩, ⟨3, 60, 180⟩, ⟨4, 0, 120⟩],
        a.id ≠ b.id ∧ collidesOut a b = true ∧ spansOverlap a b := by
  decide

unseal List.merge List.mergeSort guLoop slpLoop slpInner findLeftSlot findUp peuLeftGroupScan peuGroupsGo in
/-- C3 counterexample: the bound left + width ≤ 620 fails already for a
single event (10 + 620 = 630), and even the corrected canvas bound
left + width ≤ 630 fails for nested outputs (a seven-event input produces a
nested record with left + width = 785). -/
theorem layOutDay_bounds_cex :
    (wellFormed ⟨1, 0, 60⟩ ∧
      ∃ e ∈ layOutDayW [⟨1, 0, 60⟩], ¬(e.left + e.width ≤ 620)) ∧
    ((∀ e ∈ [(⟨1, 0, 240⟩ : IEvent), ⟨2, 0, 180⟩, ⟨3, 0, 180⟩, ⟨4, 0, 180⟩,
        ⟨5, 180, 240⟩, ⟨6, 180, 240⟩, ⟨7, 180, 240⟩], wellFormed e) ∧
      ∃ e ∈ layOutDayW [⟨1, 0, 240⟩, ⟨2, 0, 180⟩, ⟨3, 0, 180⟩, ⟨4, 0, 180⟩,
        ⟨5, 180, 240⟩, ⟨6, 180, 240⟩, ⟨7, 180, 240⟩], ¬(e.left + e.width ≤ 630)) := by
  decide

unseal List.merge List.mergeSort guLoop slpLoop slpInner findLeftSlot findUp peuLeftGroupScan peuGroupsGo in
/-- C4 counterexample: two permutations of the same well-formed input (two
events with identical intervals) yield different (id, left, width, top)
association sets: the association (1, 10, 310, 0) appears for one input
order but not for the other. -/
theorem layOutDay_perm_cex :
    ([(⟨1, 0, 60⟩ : IEvent), ⟨2, 0, 60⟩].Perm [⟨2, 0, 60⟩, ⟨1, 0, 60⟩]) ∧
    (∀ e ∈ [(⟨1, 0, 60⟩ : IEvent), ⟨2, 0, 60⟩], wellFormed e) ∧
    ∃ x ∈ (layOutDayW [⟨1, 0, 60⟩, ⟨2, 0, 60⟩]).map (fun e => (e.id, e.left, e.width, e.top)),
      x ∉ (layOutDayW [⟨2, 0, 60⟩, ⟨1, 0, 60⟩]).map (fun e => (e.id, e.left, e.width, e.top)) := by
  decide

theorem updateCollisions_getD (evs : List WEvent) (i : Nat) (h : i < evs.length) :
    (updateCollisions evs).getD i default =
      { evs.getD i default with
        collisions := (List.range evs.length).filter fun j => collPred evs i j } := by
  have h2 : i < (updateCollisions evs).length := by
    rw [length_updateCollisions]; exact h
  rw [List.getD_eq_getElem _ _ h2, List.getD_eq_getElem _ _ h]
  unfold updateCollisions
  rw [List.getElem_mapIdx]

theorem collPred_symm (evs : List WEvent) (i j : Nat) :
    collPred evs i j = collPred evs j i := by
  unfold collPred
  rcases Nat.lt_trichotomy i j with h | h | h
  · rw [if_pos h, if_neg (by omega), if_pos h]
  · subst h; rfl
  · rw [if_neg (by omega), if_pos h, if_pos h]

theorem collPred_eq_collides (evs : List WEvent) (i j : Nat) (hne : i ≠ j)
    (hwf : ∀ e ∈ evs, e.start < e.stop) (hi : i < evs.length) (hj : j < evs.length) :
    collPred evs i j = isEventsCollides (evs.getD i default) (evs.getD j default) := by
  have hmi : evs.getD i default ∈ evs := by
    rw [List.getD_eq_getElem _ _ hi]; exact List.getElem_mem hi
  have hmj : evs.getD j default ∈ evs := by
    rw [List.getD_eq_getElem _ _ hj]; exact List.getElem_mem hj
  unfold collPred
  rcases Nat.lt_trichotomy i j with h | h | h
  · rw [if_pos h]
  · exact absurd h hne
  · rw [if_neg (by omega), if_pos h, isEventsCollides_symm _ _ (hwf _ hmj) (hwf _ hmi)]

/-- C6: after `updateCollisions` over well-formed events the collision lists
are a symmetric adjacency structure: membership is mutual, holds exactly when
the two intervals collide, each list is strictly ascending and no list
contains its own index. -/
theorem updateCollisions_spec (evs : List WEvent)
    (hwf : ∀ e ∈ evs, e.start < e.stop) :
    ∀ i j, i < evs.length → j < evs.length → i ≠ j →
      ((j ∈ ((updateCollisions evs).getD i default).collisions ↔
          i ∈ ((updateCollisions evs).getD j default).collisions) ∧
        (j ∈ ((updateCollisions evs).getD i default).collisions ↔
          isEventsCollides (evs.getD i default) (evs.getD j default) = true) ∧
        ((updateCollisions evs).getD i default).collisions.Pairwise (· < ·) ∧
        i ∉ ((updateCollisions evs).getD i default).collisions) := by
  intro i j hi hj hne
  rw [updateCollisions_getD evs i hi, updateCollisions_getD evs j hj]
  simp only [List.mem_filter, List.mem_range]
  refine ⟨?_, ?_, ?_, ?_⟩
  · rw [collPred_symm evs i j]
    constructor
    · rintro ⟨_, hp⟩; exact ⟨hi, hp⟩
    · rintro ⟨_, hp⟩; exact ⟨hj, hp⟩
  · rw [collPred_eq_collides evs i j hne hwf hi hj]
    constructor
    · rintro ⟨_, hp⟩; exact hp
    · intro hp; exact ⟨hj, hp⟩
  · exact (List.pairwise_lt_range _).filter _
  · rintro ⟨_, hp⟩
    unfold collPred at hp
    rw [if_neg (by omega), if_neg (by omega)] at hp
    exact Bool.false_ne_true hp

/-- Witness for C6 at the two-event list with intervals [0,60) and [30,90). -/
theorem updateCollisions_spec_witness :
    (1 ∈ ((updateCollisions [⟨1, 0, 60, [], 0, 0, false, none⟩,
          ⟨2, 30, 90, [], 0, 0, false, none⟩]).getD 0 default).collisions ↔
        0 ∈ ((updateCollisions [⟨1, 0, 60, [], 0, 0, false, none⟩,
          ⟨2, 30, 90, [], 0, 0, false, none⟩]).getD 1 default).collisions) ∧
      (1 ∈ ((updateCollisions [⟨1, 0, 60, [], 0, 0, false, none⟩,
          ⟨2, 30, 90, [], 0, 0, false, none⟩]).getD 0 default).collisions ↔
        isEventsCollides (([⟨1, 0, 60, [], 0, 0, false, none⟩,
            ⟨2, 30, 90, [], 0, 0, false, none⟩] : List WEvent).getD 0 default)
          (([⟨1, 0, 60, [], 0, 0, false, none⟩,
            ⟨2, 30, 90, [], 0, 0, false, none⟩] : List WEvent).getD 1 default) = true) ∧
      ((updateCollisions [⟨1, 0, 60, [], 0, 0, false, none⟩,
          ⟨2, 30, 90, [], 0, 0, false, none⟩]).getD 0 default).collisions.Pairwise (· < ·) ∧
      0 ∉ ((updateCollisions [⟨1, 0, 60, [], 0, 0, false, none⟩,
          ⟨2, 30, 90, [], 0, 0, false, none⟩]).getD 0 default).collisions :=
  updateCollisions_spec _ (by decide) 0 1 (by decide) (by decide) (by decide)

theorem getD_set_self (l : List WEvent) (n : Nat) (a : WEvent) (h : n < l.length) :
    (l.set n a).getD n default = a := by
  rw [List.getD_eq_getElem _ _ (by simpa using h), List.getElem_set_self]

theorem getD_set_ne (l : List WEvent) (n m : Nat) (a : WEvent) (h : n ≠ m) :
    (l.set n a).getD m default = l.getD m default := by
  simp [List.getD, List.getElem?_set_ne h]

theorem gcc_zero (l : List Nat) : getLeftCollisionsCount l 0 = 0 := by
  cases l with
  | nil => rfl
  | cons c cs => simp [getLeftCollisionsCount]

theorem gcc_head_lt (l : List Nat) (i : Nat) (h : getLeftCollisionsCount l i ≠ 0) :
    l.headD 0 < i := by
  cases l with
  | nil => simp [getLeftCollisionsCount] at h
  | cons c cs =>
    by_cases hc : c < i
    · simpa using hc
    · simp [getLeftCollisionsCount, hc] at h

theorem tdiv_nonneg_mul_le (W n : Int) (hW : 0 ≤ W) (hn : 0 < n) :
    0 ≤ W.tdiv n ∧ n * W.tdiv n ≤ W := by
  rw [Int.tdiv_eq_ediv hW hn.le]
  constructor
  · exact Int.ediv_nonneg hW hn.le
  · have h := Int.ediv_add_emod W n
    have h2 := Int.emod_nonneg W (ne_of_gt hn)
    omega

theorem slpInner_go_spec (m w : Int) (startIdx i : Nat) (hw : 0 ≤ w) :
    ∀ n k evs left, i - k ≤ n → startIdx < k → k ≤ i → i ≤ evs.length →
      left = m + ((k - startIdx : Nat) : Int) * w →
      (slpInner evs m w startIdx k i left).2 = m + ((i - startIdx : Nat) : Int) * w ∧
      ∀ r : Nat, (slpInner evs m w startIdx k i left).1.getD r default =
        if k ≤ r ∧ r < i then
          { evs.getD r default with left := m + ((r - startIdx : Nat) : Int) * w, width := w }
        else evs.getD r default := by
  intro n
  induction n with
  | zero =>
    intro k evs left hn hsk hki hil hleft
    have hk : k = i := by omega
    rw [slpInner, if_neg (by omega)]
    subst hk
    exact ⟨hleft, fun r => by rw [if_neg (by omega)]⟩
  | succ n ih =>
    intro k evs left hn hsk hki hil hleft
    by_cases hki2 : k < i
    · rw [slpInner, if_pos hki2]
      have hks : ¬(k = startIdx ∧ (evs.getD startIdx default).left < left) := by
        rintro ⟨h1, _⟩; omega
      simp only [if_neg hks]
      have hlm : m ≤ left := by
        have : 0 ≤ ((k - startIdx : Nat) : Int) * w :=
          mul_nonneg (Int.natCast_nonneg _) hw
        omega
      have hmax : max left m = left := max_eq_left hlm
      rw [hmax]
      have hcast : left + w = m + (((k + 1) - startIdx : Nat) : Int) * w := by
        have h1 : (((k + 1) - startIdx : Nat) : Int) = ((k - startIdx : Nat) : Int) + 1 := by
          push_cast [Nat.sub_add_comm hsk.le]
          omega
        rw [h1, hleft]; ring
      obtain ⟨h2, h1⟩ := ih (k + 1) (evs.set k { evs.getD k default with width := w, left := left })
        (left + w) (by omega) (by omega) (by omega) (by simpa using hil) hcast
      refine ⟨h2, fun r => ?_⟩
      rw [h1 r]
      by_cases hr : k ≤ r ∧ r < i
      · rw [if_pos hr]
        by_cases hrk : r = k
        · subst hrk
          rw [if_neg (by omega), getD_set_self _ _ _ (by omega), hleft]
        · rw [if_pos (by omega), getD_set_ne _ _ _ _ (by omega)]
      · rw [if_neg hr, if_neg (by omega), getD_set_ne _ _ _ _ (by omega)]
    · rw [slpInner, if_neg hki2]
      have hk : k = i := by omega
      subst hk
      exact ⟨hleft, fun r => by rw [if_neg (by omega)]⟩

theorem slpInner_spec (m w : Int) (startIdx i : Nat) (evs : List WEvent) (left0 : Int)
    (hw : 0 ≤ w) (hsi : startIdx < i) (hil : i ≤ evs.length)
    (hstart : (evs.getD startIdx default).left = m) (hleft0 : m ≤ left0) :
    (slpInner evs m w startIdx startIdx i left0).2 = m + ((i - startIdx : Nat) : Int) * w ∧
    ∀ r : Nat, (slpInner evs m w startIdx startIdx i left0).1.getD r default =
      if startIdx ≤ r ∧ r < i then
        { evs.getD r default with left := m + ((r - startIdx : Nat) : Int) * w, width := w }
      else evs.getD r default := by
  rw [slpInner, if_pos hsi]
  simp only [eq_self_iff_true, true_and]
  rw [hstart]
  have hsplit : (if m < left0 then m else left0) = m := by
    split <;> omega
  rw [hsplit, max_self]
  have hcast : m + w = m + (((startIdx + 1) - startIdx : Nat) : Int) * w := by
    simp
  obtain ⟨h2, h1⟩ := slpInner_go_spec m w startIdx i hw (i - (startIdx + 1)) (startIdx + 1)
    (evs.set startIdx
      { id := (evs.getD startIdx default).id, start := (evs.getD startIdx default).start,
        stop := (evs.getD startIdx default).stop,
        collisions := (evs.getD startIdx default).collisions, left := m, width := w,
        hasEventUnder := (evs.getD startIdx default).hasEventUnder,
        topEventId := (evs.getD startIdx default).topEventId })
    (m + w) (by omega) (by omega) (by omega) (by simpa using hil) hcast
  refine ⟨h2, fun r => ?_⟩
  rw [h1 r]
  by_cases hr : startIdx ≤ r ∧ r < i
  · rw [if_pos hr]
    by_cases hrk : r = startIdx
    · subst hrk
      rw [if_neg (by omega), getD_set_self _ _ _ (by omega)]
      simp
    · rw [if_pos (by omega), getD_set_ne _ _ _ _ (by omega)]
  · rw [if_neg hr, if_neg (by omega), getD_set_ne _ _ _ _ (by omega)]

/-- The bound that the primary column pass guarantees for each record. -/
def slpBound (m W : Int) (e : WEvent) : Prop :=
  m ≤ e.left ∧ e.left + e.width ≤ m + W ∧ 0 ≤ e.width

theorem slpLoop_bounds (m W : Int) (hW : 0 ≤ W) :
    ∀ n evs start i, evs.length - i ≤ n →
      (start < i ∨ (start = 0 ∧ i = 0)) →
      (start < i → (evs.getD start default).left = m) →
      (∀ k, k < i → k < evs.length → slpBound m W (evs.getD k default)) →
      (slpLoop evs m W start i).length = evs.length ∧
      ∀ k, k < evs.length → slpBound m W ((slpLoop evs m W start i).getD k default) := by
  intro n
  induction n with
  | zero =>
    intro evs start i hn hd hs hp
    rw [slpLoop, dif_neg (by omega)]
    exact ⟨rfl, fun k hk => hp k (by omega) hk⟩
  | succ n ih =>
    intro evs start i hn hd hs hp
    by_cases h : i < evs.length
    case neg =>
      rw [slpLoop, dif_neg h]
      exact ⟨rfl, fun k hk => hp k (by omega) hk⟩
    case pos =>
      rw [slpLoop, dif_pos h]
      by_cases hg : getLeftCollisionsCount (evs.get ⟨i, h⟩).collisions i = 0
      case pos =>
        simp only [if_pos hg]
        obtain ⟨hlen, hB⟩ := ih (evs.set i { evs.get ⟨i, h⟩ with left := m, width := W })
          i (i + 1) (by simp only [List.length_set]; omega) (Or.inl (by omega))
          (fun _ => by rw [getD_set_self _ _ _ h])
          (fun k2 hk2 hk2l => by
            by_cases hki : k2 = i
            · rw [hki, getD_set_self _ _ _ h]
              exact ⟨le_refl m, by simp, hW⟩
            · rw [getD_set_ne _ _ _ _ (fun hh => hki hh.symm)]
              exact hp k2 (by omega) (by simpa using hk2l))
        refine ⟨hlen.trans (by simp), fun k hk => hB k (by simpa using hk)⟩
      case neg =>
        simp only [if_neg hg]
        have hsi : start < i := by
          rcases hd with h1 | ⟨h1, h2⟩
          · exact h1
          · subst h2; exact absurd (gcc_zero _) hg
        have hc : (evs.get ⟨i, h⟩).collisions.headD 0 < i := gcc_head_lt _ _ hg
        have hleft0 : m ≤ (evs.getD ((evs.get ⟨i, h⟩).collisions.headD 0) default).left :=
          (hp _ hc (by omega)).1
        have hn0 : (0 : Int) < (i : Int) - (start : Int) + 1 := by omega
        obtain ⟨hw, hmul⟩ := tdiv_nonneg_mul_le W ((i : Int) - (start : Int) + 1) hW hn0
        obtain ⟨hp2, hp1⟩ := slpInner_spec m (Int.tdiv W ((i : Int) - (start : Int) + 1))
          start i evs (evs.getD ((evs.get ⟨i, h⟩).collisions.headD 0) default).left
          hw hsi (le_of_lt h) (hs hsi) hleft0
        have hcast : ((i - start : Nat) : Int) = (i : Int) - (start : Int) := by omega
        have hlen1 : (slpInner evs m (Int.tdiv W ((i : Int) - (start : Int) + 1)) start start i
            (evs.getD ((evs.get ⟨i, h⟩).collisions.headD 0) default).left).1.length
            = evs.length := slpInner_length _ _ _ _ _ _ _
        obtain ⟨hlen, hB⟩ := ih
          ((slpInner evs m (Int.tdiv W ((i : Int) - (start : Int) + 1)) start start i
            (evs.getD ((evs.get ⟨i, h⟩).collisions.headD 0) default).left).1.set i
            { evs.get ⟨i, h⟩ with
              left := (slpInner evs m (Int.tdiv W ((i : Int) - (start : Int) + 1)) start start i
                (evs.getD ((evs.get ⟨i, h⟩).collisions.headD 0) default).left).2,
              width := Int.tdiv W ((i : Int) - (start : Int) + 1) })
          start (i + 1) (by simp only [List.length_set, hlen1]; omega) (Or.inl (by omega))
          (fun _ => by
            rw [getD_set_ne _ _ _ _ (by omega), hp1 start, if_pos ⟨le_refl start, hsi⟩]
            simp)
          (fun k2 hk2 hk2l => by
            have hk2len : k2 < evs.length := by
              rw [List.length_set, hlen1] at hk2l; exact hk2l
            by_cases hki : k2 = i
            · rw [hki, getD_set_self _ _ _ (by rw [hlen1]; exact h), hp2]
              have hmn : (0 : Int) ≤ ((i - start : Nat) : Int) *
                  Int.tdiv W ((i : Int) - (start : Int) + 1) :=
                mul_nonneg (Int.natCast_nonneg _) hw
              have hkey : ((i - start : Nat) : Int) * Int.tdiv W ((i : Int) - (start : Int) + 1)
                  + Int.tdiv W ((i : Int) - (start : Int) + 1)
                  = ((i : Int) - (start : Int) + 1) *
                    Int.tdiv W ((i : Int) - (start : Int) + 1) := by
                rw [hcast]; ring
              refine ⟨?_, ?_, hw⟩
              · show m ≤ m + ((i - start : Nat) : Int) *
                  Int.tdiv W ((i : Int) - (start : Int) + 1)
                linarith
              · show m + ((i - start : Nat) : Int) * Int.tdiv W ((i : Int) - (start : Int) + 1)
                  + Int.tdiv W ((i : Int) - (start : Int) + 1) ≤ m + W
                linarith
            · rw [getD_set_ne _ _ _ _ (fun hh => hki hh.symm), hp1 k2]
              by_cases hk2r : start ≤ k2 ∧ k2 < i
              · rw [if_pos hk2r]
                have hmn : (0 : Int) ≤ ((k2 - start : Nat) : Int) *
                    Int.tdiv W ((i : Int) - (start : Int) + 1) :=
                  mul_nonneg (Int.natCast_nonneg _) hw
                have hle : (((k2 - start : Nat) : Int) + 1) *
                    Int.tdiv W ((i : Int) - (start : Int) + 1)
                    ≤ ((i : Int) - (start : Int) + 1) *
                      Int.tdiv W ((i : Int) - (start : Int) + 1) :=
                  mul_le_mul_of_nonneg_right (by omega) hw
                have hkey : ((k2 - start : Nat) : Int) *
                    Int.tdiv W ((i : Int) - (start : Int) + 1)
                    + Int.tdiv W ((i : Int) - (start : Int) + 1)
                    = (((k2 - start : Nat) : Int) + 1) *
                      Int.tdiv W ((i : Int) - (start : Int) + 1) := by ring
                refine ⟨?_, ?_, hw⟩
                · show m ≤ m + ((k2 - start : Nat) : Int) *
                    Int.tdiv W ((i : Int) - (start : Int) + 1)
                  linarith
                · show m + ((k2 - start : Nat) : Int) *
                    Int.tdiv W ((i : Int) - (start : Int) + 1)
                    + Int.tdiv W ((i : Int) - (start : Int) + 1) ≤ m + W
                  linarith
              · rw [if_neg hk2r]
                exact hp k2 (by omega) hk2len)
        refine ⟨hlen.trans (by simp only [List.length_set, hlen1]),
          fun k hk => hB k (by simp only [List.length_set, hlen1]; exact hk)⟩

theorem setLayOutParams_bounds (evs : List WEvent) :
    ∀ e ∈ setLayOutParams evs 10 620, 10 ≤ e.left ∧ e.left + e.width ≤ 630 := by
  intro e he
  obtain ⟨hlen, hB⟩ := slpLoop_bounds 10 620 (by omega) evs.length evs 0 0 (by omega)
    (Or.inr ⟨rfl, rfl⟩) (fun hh => absurd hh (by omega)) (fun k hk _ => absurd hk (by omega))
  unfold setLayOutParams at he
  obtain ⟨k, hk, hke⟩ := List.mem_iff_getElem.mp he
  have hkl : k < evs.length := by rw [hlen] at hk; exact hk
  have := hB k hkl
  rw [List.getD_eq_getElem _ _ hk, hke] at this
  exact ⟨this.1, by have := this.2.1; omega⟩

/-- The primary (non-nested) half of the output of `layOutDay`. -/
def primaryPart (l : List IEvent) : List OEvent :=
  normalizeEvents (setLayOutParams
    (getEventsUnder (updateCollisions (sortEvents (cloneEvents (l.map some))))).1 10 620)

/-- The nested half of the output of `layOutDay`. -/
def underPart (l : List IEvent) : List OEvent :=
  normalizeEvents (processEventsUnder
    (getEventsUnder (updateCollisions (sortEvents (cloneEvents (l.map some))))).2
    (setLayOutParams
      (getEventsUnder (updateCollisions (sortEvents (cloneEvents (l.map some))))).1 10 620))

theorem layOutDay_split (l : List IEvent) :
    layOutDayW l = primaryPart l ++ underPart l := by
  unfold layOutDayW layOutDay primaryPart underPart normalizeEvents
  simp [List.map_append]

/-- C3 amended: the output of `layOutDay` is the primary part followed by the
nested part, and every record of the primary part satisfies `10 ≤ left` and
`left + width ≤ 630`; the 620 bound of the claim fails already for a single
event, and no constant bound holds for the nested part. -/
theorem layOutDay_primary_bounds (l : List IEvent) :
    layOutDayW l = primaryPart l ++ underPart l ∧
    ∀ e ∈ primaryPart l, 10 ≤ e.left ∧ e.left + e.width ≤ 630 := by
  refine ⟨layOutDay_split l, ?_⟩
  intro e he
  unfold primaryPart normalizeEvents at he
  obtain ⟨w1, hw1, hwe⟩ := List.mem_map.mp he
  obtain ⟨h1, h2⟩ := setLayOutParams_bounds _ w1 hw1
  rw [← hwe]
  exact ⟨h1, h2⟩

unseal List.merge List.mergeSort guLoop slpLoop slpInner findLeftSlot findUp peuLeftGroupScan peuGroupsGo in
/-- Witness for C3 amended at the single-event input. -/
theorem layOutDay_primary_bounds_witness :
    layOutDayW [(⟨1, 0, 60⟩ : IEvent)] = primaryPart [⟨1, 0, 60⟩] ++ underPart [⟨1, 0, 60⟩] ∧
    (10 ≤ (10 : Int) ∧ (10 : Int) + 620 ≤ 630) :=
  ⟨(layOutDay_primary_bounds [⟨1, 0, 60⟩]).1,
    (layOutDay_primary_bounds [⟨1, 0, 60⟩]).2 ⟨1, 0, 60, 10, 620, 0⟩ (by decide)⟩

theorem eventLE_trans (a b c : WEvent) (hab : eventLE a b = true) (hbc : eventLE b c = true) :
    eventLE a c = true := by
  simp only [eventLE, Bool.or_eq_true, Bool.and_eq_true, decide_eq_true_eq, beq_iff_eq] at *
  omega

theorem eventLE_total (a b : WEvent) : (eventLE a b || eventLE b a) = true := by
  simp only [eventLE, Bool.or_eq_true, Bool.and_eq_true, decide_eq_true_eq, beq_iff_eq]
  omega

theorem eventLE_antisymm_key (a b : WEvent) (hab : eventLE a b = true)
    (hba : eventLE b a = true) : a.start = b.start ∧ a.stop = b.stop := by
  simp only [eventLE, Bool.or_eq_true, Bool.and_eq_true, decide_eq_true_eq, beq_iff_eq] at *
  omega

theorem sorted_perm_eq_of_nodup_keys :
    ∀ (l1 l2 : List WEvent), l1.Perm l2 →
      l1.Pairwise (fun a b => eventLE a b = true) →
      l2.Pairwise (fun a b => eventLE a b = true) →
      (l1.map fun e => (e.start, e.stop)).Nodup →
      l1 = l2 := by
  intro l1
  induction l1 with
  | nil =>
    intro l2 hperm _ _ _
    exact List.Perm.nil_eq hperm
  | cons a t1 ih =>
    intro l2 hperm hs1 hs2 hnd
    cases l2 with
    | nil => exact absurd hperm.symm (by simp)
    | cons b t2 =>
      by_cases hab : a = b
      · subst hab
        rw [ih t2 hperm.cons_inv (List.Pairwise.of_cons hs1) (List.Pairwise.of_cons hs2)
          (by simpa using (List.nodup_cons.mp hnd).2)]
      · have hbl : b ∈ a :: t1 := hperm.symm.subset (List.mem_cons_self _ _)
        have hbt : b ∈ t1 := by
          cases List.mem_cons.mp hbl with
          | inl hh => exact absurd hh.symm hab
          | inr hh => exact hh
        have hal : a ∈ b :: t2 := hperm.subset (List.mem_cons_self _ _)
        have hat : a ∈ t2 := by
          cases List.mem_cons.mp hal with
          | inl hh => exact absurd hh hab
          | inr hh => exact hh
        have h1 : eventLE a b = true := (List.pairwise_cons.mp hs1).1 b hbt
        have h2 : eventLE b a = true := (List.pairwise_cons.mp hs2).1 a hat
        obtain ⟨hst, hsp⟩ := eventLE_antisymm_key a b h1 h2
        exfalso
        have := (List.nodup_cons.mp hnd).1
        exact this (by
          rw [List.mem_map]
          exact ⟨b, hbt, by simp only [hst, hsp]⟩)

theorem sortEvents_perm_eq (l1 l2 : List WEvent) (hperm : l1.Perm l2)
    (hnd : (l1.map fun e => (e.start, e.stop)).Nodup) :
    sortEvents l1 = sortEvents l2 := by
  refine sorted_perm_eq_of_nodup_keys _ _ ?_ ?_ ?_ ?_
  · exact ((List.mergeSort_perm l1 eventLE).trans hperm).trans
      (List.mergeSort_perm l2 eventLE).symm
  · exact List.sorted_mergeSort eventLE_trans eventLE_total l1
  · exact List.sorted_mergeSort eventLE_trans eventLE_total l2
  · have hp : ((sortEvents l1).map fun e => (e.start, e.stop)).Perm
        (l1.map fun e => (e.start, e.stop)) :=
      (List.mergeSort_perm l1 eventLE).map _
    exact hp.nodup_iff.mpr hnd

theorem cloneEvents_map_some_keys (l : List IEvent) :
    ((cloneEvents (l.map some)).map fun e => (e.start, e.stop)) =
      l.map fun e => (e.start, e.stop) := by
  unfold cloneEvents
  rw [takeTruthy_map_some, List.map_map]
  rfl

/-- C4 amended: for inputs whose events have pairwise distinct (start, end)
pairs (so the JS comparator is consistent), any two permutations of the same
input produce identical outputs, hence the same set of
(id, left, width, top) associations.  With duplicated intervals the claim
fails (see the counterexample): the tie order of the sort leaks into the
geometry. -/
theorem layOutDay_perm_invariant (l1 l2 : List IEvent) (hperm : l1.Perm l2)
    (hkeys : (l1.map fun e => (e.start, e.stop)).Nodup) :
    layOutDayW l1 = layOutDayW l2 ∧
    (layOutDayW l1).map (fun e => (e.id, e.left, e.width, e.top)) =
      (layOutDayW l2).map (fun e => (e.id, e.left, e.width, e.top)) := by
  have hcl : (cloneEvents (l1.map some)).Perm (cloneEvents (l2.map some)) := by
    unfold cloneEvents
    rw [takeTruthy_map_some, takeTruthy_map_some]
    exact hperm.map _
  have hsort : sortEvents (cloneEvents (l1.map some)) =
      sortEvents (cloneEvents (l2.map some)) :=
    sortEvents_perm_eq _ _ hcl (by rw [cloneEvents_map_some_keys]; exact hkeys)
  have heq : layOutDayW l1 = layOutDayW l2 := by
    unfold layOutDayW layOutDay
    rw [hsort]
  exact ⟨heq, by rw [heq]⟩

/-- Witness for C4 amended at a two-event input with distinct intervals. -/
theorem layOutDay_perm_invariant_witness :
    layOutDayW [(⟨1, 0, 60⟩ : IEvent), ⟨2, 30, 90⟩] =
      layOutDayW [(⟨2, 30, 90⟩ : IEvent), ⟨1, 0, 60⟩] ∧
    (layOutDayW [(⟨1, 0, 60⟩ : IEvent), ⟨2, 30, 90⟩]).map
        (fun e => (e.id, e.left, e.width, e.top)) =
      (layOutDayW [(⟨2, 30, 90⟩ : IEvent), ⟨1, 0, 60⟩]).map
        (fun e => (e.id, e.left, e.width, e.top)) :=
  layOutDay_perm_invariant _ _ (by decide) (by decide)

theorem map_eraseIdx (f : WEvent → Int) :
    ∀ (l : List WEvent) (i : Nat), (l.eraseIdx i).map f = (l.map f).eraseIdx i := by
  intro l
  induction l with
  | nil => intro i; rfl
  | cons a t ih =>
    intro i
    cases i with
    | zero => rfl
    | succ n => simp [List.eraseIdx, ih]

theorem perm_getElem_cons_eraseIdx (l : List Int) (i : Nat) (h : i < l.length) :
    l.Perm (l[i] :: l.eraseIdx i) := by
  conv_lhs => rw [← List.take_append_drop i l]
  rw [List.eraseIdx_eq_take_drop_succ]
  have hdrop : l.drop i = l[i] :: l.drop (i + 1) := (List.getElem_cons_drop l i h).symm
  rw [hdrop]
  exact List.perm_middle

theorem set_getD_self (L : List Int) (k : Nat) (d : Int) : L.set k (L.getD k d) = L := by
  by_cases h : k < L.length
  · rw [List.getD_eq_getElem _ _ h]
    apply List.ext_getElem
    · simp
    · intro n h1 h2
      by_cases hn : n = k
      · subst hn; simp [List.getElem_set_self]
      · rw [List.getElem_set_ne (fun hh => hn hh.symm)]
  · exact List.set_eq_of_length_le (Nat.le_of_not_lt h)

/-- `f` only reads the core fields `id`, `start`, `end` of a working event
(so it is unchanged by the bookkeeping mutations of the pipeline). -/
def CoreProj (f : WEvent → Int) : Prop :=
  ∀ e1 e2 : WEvent, e1.id = e2.id → e1.start = e2.start → e1.stop = e2.stop → f e1 = f e2

theorem map_core_updateCollisions (f : WEvent → Int) (hf : CoreProj f) (evs : List WEvent) :
    (updateCollisions evs).map f = evs.map f := by
  apply List.ext_getElem
  · simp [length_updateCollisions]
  · intro n h1 h2
    have hn : n < evs.length := by simpa using h2
    have hn2 : n < (updateCollisions evs).length := by rw [length_updateCollisions]; exact hn
    rw [List.getElem_map, List.getElem_map]
    have hd := updateCollisions_getD evs n hn
    rw [List.getD_eq_getElem _ _ hn2, List.getD_eq_getElem _ _ hn] at hd
    rw [hd]
    exact hf _ _ rfl rfl rfl

theorem getD_eraseIdx_of_lt (l : List Int) (i j : Nat) (d : Int) (hj : j < i)
    (hi : i < l.length) : (l.eraseIdx i).getD j d = l.getD j d := by
  rw [List.getD_eq_getElem _ _ (by rw [List.length_eraseIdx_of_lt hi]; omega),
    List.getD_eq_getElem _ _ (by omega), List.getElem_eraseIdx_of_lt]
  omega

theorem findLeftSlot_some (evs : List WEvent) (c : WEvent) :
    ∀ (j0 i j : Nat), findLeftSlot evs c j0 i = some j →
      j0 ≤ j ∧ j < i ∧
      isEventsCollides (evs.getD j default) c = false ∧
      (evs.getD j default).hasEventUnder = false := by
  intro j0 i
  induction j0, i using findLeftSlot.induct evs c with
  | case1 j0 i hj0 leftEvent hcond =>
    intro j hfs
    rw [findLeftSlot, if_pos hj0] at hfs
    simp only [if_pos hcond] at hfs
    obtain rfl : j0 = j := Option.some.inj hfs
    simp only [Bool.and_eq_true, Bool.not_eq_true'] at hcond
    exact ⟨le_refl _, hj0, hcond.1, hcond.2⟩
  | case2 j0 i hj0 leftEvent hcond ih =>
    intro j hfs
    rw [findLeftSlot, if_pos hj0] at hfs
    simp only [if_neg hcond] at hfs
    obtain ⟨h1, h2, h3, h4⟩ := ih j hfs
    exact ⟨by omega, h2, h3, h4⟩
  | case3 j0 i hj0 =>
    intro j hfs
    rw [findLeftSlot, if_neg hj0] at hfs
    exact absurd hfs (by simp)

theorem slpInner_map_core (f : WEvent → Int) (hf : CoreProj f) (evs : List WEvent)
    (minLeft width : Int) (startIdx k i : Nat) (left : Int) :
    (slpInner evs minLeft width startIdx k i left).1.map f = evs.map f := by
  induction evs, minLeft, width, startIdx, k, i, left using slpInner.induct with
  | case1 evs minLeft width startIdx k i left hk left1 ek ih =>
    rw [slpInner, if_pos hk]
    show (slpInner (evs.set k { ek with width := width, left := max left1 minLeft })
      minLeft width startIdx (k + 1) i (left1 + width)).1.map f = evs.map f
    rw [ih, List.map_set,
      show f { ek with width := width, left := max left1 minLeft } = f (evs.getD k default)
        from hf _ _ rfl rfl rfl,
      ← List.getD_map evs default f]
    exact set_getD_self _ _ _
  | case2 evs minLeft width startIdx k i left hk =>
    rw [slpInner, if_neg hk]

theorem slpLoop_length : ∀ (n : Nat) (evs : List WEvent) (m W : Int) (start i : Nat),
    evs.length - i ≤ n → (slpLoop evs m W start i).length = evs.length := by
  intro n
  induction n with
  | zero =>
    intro evs m W start i hn
    rw [slpLoop, dif_neg (by omega)]
  | succ n ih =>
    intro evs m W start i hn
    by_cases h : i < evs.length
    case neg => rw [slpLoop, dif_neg h]
    case pos =>
      rw [slpLoop, dif_pos h]
      by_cases hg : getLeftCollisionsCount (evs.get ⟨i, h⟩).collisions i = 0
      case pos =>
        simp only [if_pos hg]
        exact (ih (evs.set i { evs.get ⟨i, h⟩ with left := m, width := W }) m W i (i + 1)
          (by simp only [List.length_set]; omega)).trans (by simp)
      case neg =>
        simp only [if_neg hg]
        refine (ih _ m W start (i + 1) ?_).trans ?_
        · simp only [List.length_set, slpInner_length]; omega
        · simp only [List.length_set, slpInner_length]

theorem slpLoop_map_core (f : WEvent → Int) (hf : CoreProj f) :
    ∀ (n : Nat) (evs : List WEvent) (m W : Int) (start i : Nat),
    evs.length - i ≤ n → (slpLoop evs m W start i).map f = evs.map f := by
  intro n
  induction n with
  | zero =>
    intro evs m W start i hn
    rw [slpLoop, dif_neg (by omega)]
  | succ n ih =>
    intro evs m W start i hn
    by_cases h : i < evs.length
    case neg => rw [slpLoop, dif_neg h]
    case pos =>
      have hbr : evs.getD i default = evs.get ⟨i, h⟩ := List.getD_eq_getElem _ _ h
      rw [slpLoop, dif_pos h]
      by_cases hg : getLeftCollisionsCount (evs.get ⟨i, h⟩).collisions i = 0
      case pos =>
        simp only [if_pos hg]
        refine (ih (evs.set i { evs.get ⟨i, h⟩ with left := m, width := W }) m W i (i + 1)
          (by simp only [List.length_set]; omega)).trans ?_
        rw [List.map_set,
          show f { evs.get ⟨i, h⟩ with left := m, width := W } = f (evs.getD i default)
            from hf _ _ (by rw [hbr]) (by rw [hbr]) (by rw [hbr]),
          ← List.getD_map evs default f]
        exact set_getD_self _ _ _
      case neg =>
        simp only [if_neg hg]
        refine (ih _ m W start (i + 1) ?_).trans ?_
        · simp only [List.length_set, slpInner_length]; omega
        · rw [List.map_set, slpInner_map_core f hf,
            show f { evs.get ⟨i, h⟩ with
                left := (slpInner evs m (Int.tdiv W ((i : Int) - (start : Int) + 1)) start start i
                  (evs.getD ((evs.get ⟨i, h⟩).collisions.headD 0) default).left).2,
                width := Int.tdiv W ((i : Int) - (start : Int) + 1) } = f (evs.getD i default)
              from hf _ _ (by rw [hbr]) (by rw [hbr]) (by rw [hbr]),
            ← List.getD_map evs default f]
          exact set_getD_self _ _ _

theorem setLayOutParams_length (evs : List WEvent) (m W : Int) :
    (setLayOutParams evs m W).length = evs.length :=
  slpLoop_length evs.length evs m W 0 0 (by omega)

theorem setLayOutParams_map_core (f : WEvent → Int) (hf : CoreProj f)
    (evs : List WEvent) (m W : Int) : (setLayOutParams evs m W).map f = evs.map f :=
  slpLoop_map_core f hf evs.length evs m W 0 0 (by omega)

theorem guLoop_core_perm (f : WEvent → Int) (hf : CoreProj f) :
    ∀ (n : Nat) (evs under : List WEvent) (start i : Nat), 2 * evs.length - i ≤ n →
      ((guLoop evs under start i).1.map f ++ (guLoop evs under start i).2.map f).Perm
        (evs.map f ++ under.map f) := by
  intro n
  induction n with
  | zero =>
    intro evs under start i hn
    rw [guLoop, dif_neg (by omega)]
  | succ n ih =>
    intro evs under start i hn
    by_cases h : i < evs.length
    case neg =>
      rw [guLoop, dif_neg h]
    case pos =>
      rw [guLoop, dif_pos h]
      by_cases hg : getLeftCollisionsCount (evs.get ⟨i, h⟩).collisions i ≠ 0
      case pos =>
        cases hfs : findLeftSlot evs (evs.get ⟨i, h⟩) start i with
        | some j =>
          simp only [if_pos hg, hfs]
          obtain ⟨hj1, hj2, hj3, hj4⟩ := findLeftSlot_some evs (evs.get ⟨i, h⟩) start i j hfs
          refine (ih _ _ start i (by
            rw [length_updateCollisions, List.length_set, List.length_eraseIdx_of_lt h]
            omega)).trans ?_
          have hfR1 : f ({ id := (evs.getD j default).id, start := (evs.getD j default).start, stop := (evs.getD j default).stop, collisions := (evs.getD j default).collisions, left := (evs.getD j default).left, width := (evs.getD j default).width, hasEventUnder := true, topEventId := (evs.getD j default).topEventId } : WEvent) = f (evs.getD j default) := hf _ _ rfl rfl rfl
          have hfR : f ({ id := (evs.getD j default).id, start := (evs.getD j default).start, stop := (evs.getD j default).stop, collisions := (evs.getD j default).collisions, left := (evs.getD j default).left, width := (evs.getD j default).width, hasEventUnder := true, topEventId := (evs.getD j default).topEventId } : WEvent) = ((evs.map f).eraseIdx i).getD j (f default) := by
            rw [hfR1, ← List.getD_map evs default f,
              getD_eraseIdx_of_lt _ _ _ _ hj2 (by simpa using h)]
          have hfC : f ({ id := (evs.get ⟨i, h⟩).id, start := (evs.get ⟨i, h⟩).start, stop := (evs.get ⟨i, h⟩).stop, collisions := (evs.get ⟨i, h⟩).collisions, left := (evs.get ⟨i, h⟩).left, width := (evs.get ⟨i, h⟩).width, hasEventUnder := (evs.get ⟨i, h⟩).hasEventUnder, topEventId := some (evs.getD j default).id } : WEvent) = f (evs.get ⟨i, h⟩) := hf _ _ rfl rfl rfl
          rw [map_core_updateCollisions f hf, List.map_set, map_eraseIdx, List.map_append,
            List.map_cons, List.map_nil, hfR, set_getD_self, hfC]
          refine ((List.Perm.append_left _ (List.perm_append_singleton _ _)).trans
            List.perm_middle).trans ?_
          refine List.Perm.symm ?_
          have hE := perm_getElem_cons_eraseIdx (evs.map f) i (by simpa using h)
          rw [List.getElem_map] at hE
          exact hE.append_right (under.map f)
        | none =>
          simp only [if_pos hg, hfs]
          exact ih evs under start (i + 1) (by omega)
      case neg =>
        simp only [if_neg hg]
        exact ih evs under i (i + 1) (by omega)

theorem getEventsUnder_core_perm (f : WEvent → Int) (hf : CoreProj f) (evs : List WEvent) :
    ((getEventsUnder evs).1.map f ++ (getEventsUnder evs).2.map f).Perm (evs.map f) := by
  have h := guLoop_core_perm f hf (2 * evs.length) evs [] 0 0 (by omega)
  rw [List.map_nil, List.append_nil] at h
  unfold getEventsUnder
  by_cases hc : (guLoop evs [] 0 0).2.length ≠ 0
  · simp only [if_pos hc]
    rw [map_core_updateCollisions f hf]
    exact h
  · simp only [if_neg hc]
    exact h

theorem foldl_set_map_proj (f : WEvent → Int) :
    ∀ (ps : List (Nat × WEvent)) (u : List WEvent),
      (∀ p ∈ ps, f p.2 = f (u.getD p.1 default)) →
      (ps.foldl (fun u2 p => u2.set p.1 p.2) u).map f = u.map f := by
  intro ps
  induction ps with
  | nil => intro u _; rfl
  | cons q rest ih =>
    intro u hps
    have hu : (u.set q.1 q.2).map f = u.map f := by
      rw [List.map_set, hps q (List.mem_cons_self _ _), ← List.getD_map u default f]
      exact set_getD_self _ _ _
    rw [List.foldl_cons, ih (u.set q.1 q.2) ?_, hu]
    intro p hp
    rw [← List.getD_map (u.set q.1 q.2) default f, hu, List.getD_map]
    exact hps p (List.mem_cons_of_mem _ hp)

theorem applyGroup_map_core (f : WEvent → Int) (hf : CoreProj f)
    (under : List WEvent) (g : EGroup) : (applyGroup under g).map f = under.map f := by
  unfold applyGroup
  apply foldl_set_map_proj
  intro p hp
  obtain ⟨q, hq, hpe⟩ := List.mem_iff_getElem.mp hp
  rw [List.getElem_zip] at hpe
  have hq1 : q < g.itemIdxs.length := by
    have := hq; simp only [List.length_zip] at this; omega
  have hq2 : q < (setLayOutParams (g.itemIdxs.map fun k => under.getD k default)
      g.left g.width).length := by
    have := hq; simp only [List.length_zip] at this; omega
  rw [← hpe]
  show f ((setLayOutParams (g.itemIdxs.map fun k => under.getD k default) g.left g.width)[q])
    = f (under.getD (g.itemIdxs[q]) default)
  have hmaps := setLayOutParams_map_core f hf
    (g.itemIdxs.map fun k => under.getD k default) g.left g.width
  rw [← List.getD_eq_getElem (setLayOutParams (g.itemIdxs.map fun k => under.getD k default)
      g.left g.width) default hq2,
    ← List.getD_map _ default f, hmaps, List.getD_map,
    List.getD_eq_getElem _ _ (by simpa using hq1), List.getElem_map]

theorem processEventsUnder_map_core (f : WEvent → Int) (hf : CoreProj f)
    (under evs : List WEvent) : (processEventsUnder under evs).map f = under.map f := by
  unfold processEventsUnder
  generalize peuGroups under evs = gs
  induction gs generalizing under with
  | nil => rfl
  | cons gg rest ih =>
    rw [List.foldl_cons, ih (applyGroup under gg.2), applyGroup_map_core f hf]

theorem normalizeEvents_map_id (evs : List WEvent) :
    (normalizeEvents evs).map OEvent.id = evs.map WEvent.id := by
  unfold normalizeEvents
  rw [List.map_map]
  rfl

theorem cloneEvents_map_id (l : List IEvent) :
    (cloneEvents (l.map some)).map WEvent.id = l.map IEvent.id := by
  unfold cloneEvents
  rw [takeTruthy_map_some, List.map_map]
  rfl

/-- C2: for every array of well-formed events with pairwise distinct ids,
the ids of the output of `layOutDay` are a permutation of the input ids and
contain no duplicates: no event is dropped and none is duplicated. -/
theorem layOutDay_ids_perm (l : List IEvent) (_hwf : ∀ e ∈ l, wellFormed e)
    (hnd : (l.map IEvent.id).Nodup) :
    ((layOutDayW l).map OEvent.id).Perm (l.map IEvent.id) ∧
    ((layOutDayW l).map OEvent.id).Nodup := by
  have hcore : CoreProj WEvent.id := fun e1 e2 h1 _ _ => h1
  have hmain : ((layOutDayW l).map OEvent.id).Perm (l.map IEvent.id) := by
    unfold layOutDayW layOutDay
    rw [normalizeEvents_map_id, List.map_append,
      setLayOutParams_map_core WEvent.id hcore,
      processEventsUnder_map_core WEvent.id hcore]
    refine (getEventsUnder_core_perm WEvent.id hcore _).trans ?_
    rw [map_core_updateCollisions WEvent.id hcore, ← cloneEvents_map_id l]
    exact (List.mergeSort_perm (cloneEvents (l.map some)) eventLE).map WEvent.id
  exact ⟨hmain, hmain.nodup_iff.mpr hnd⟩

/-- Witness for C2 at a concrete two-event input. -/
theorem layOutDay_ids_perm_witness :
    ((layOutDayW [(⟨1, 0, 60⟩ : IEvent), ⟨2, 30, 90⟩]).map OEvent.id).Perm
      ([(⟨1, 0, 60⟩ : IEvent), ⟨2, 30, 90⟩].map IEvent.id) ∧
    ((layOutDayW [(⟨1, 0, 60⟩ : IEvent), ⟨2, 30, 90⟩]).map OEvent.id).Nodup :=
  layOutDay_ids_perm _ (by decide) (by decide)

theorem getD_eraseIdx_lt_w (l : List WEvent) (i j : Nat) (hj : j < i) (hi : i < l.length) :
    (l.eraseIdx i).getD j default = l.getD j default := by
  rw [List.getD_eq_getElem _ _ (by rw [List.length_eraseIdx_of_lt hi]; omega),
    List.getD_eq_getElem _ _ (by omega), List.getElem_eraseIdx_of_lt]
  omega

theorem getD_eraseIdx_ge_w (l : List WEvent) (i j : Nat) (hj : i ≤ j) (hjl : j < l.length - 1) :
    (l.eraseIdx i).getD j default = l.getD (j + 1) default := by
  rw [List.getD_eq_getElem _ _ (by rw [List.length_eraseIdx_of_lt (by omega)]; omega),
    List.getD_eq_getElem _ _ (by omega), List.getElem_eraseIdx_of_ge]
  omega

theorem map_top_updateCollisions (evs : List WEvent) :
    ((updateCollisions evs).map fun e => e.topEventId) = evs.map fun e => e.topEventId := by
  apply List.ext_getElem
  · simp [length_updateCollisions]
  · intro n h1 h2
    have hn : n < evs.length := by simpa using h2
    have hn2 : n < (updateCollisions evs).length := by rw [length_updateCollisions]; exact hn
    rw [List.getElem_map, List.getElem_map]
    have hd := updateCollisions_getD evs n hn
    rw [List.getD_eq_getElem _ _ hn2, List.getD_eq_getElem _ _ hn] at hd
    rw [hd]

theorem cloneEvents_flags (l : List (Option IEvent)) :
    ∀ e ∈ cloneEvents l, e.hasEventUnder = false := by
  intro e he
  unfold cloneEvents at he
  obtain ⟨x, _, hxe⟩ := List.mem_map.mp he
  rw [← hxe]

theorem guLoop_top_nodup :
    ∀ (n : Nat) (evs under : List WEvent) (start i : Nat), 2 * evs.length - i ≤ n →
      (evs.map WEvent.id).Nodup →
      ((under.map fun e => e.topEventId)).Nodup →
      (∀ u ∈ under, ∃ v, u.topEventId = some v ∧
        ∃ a ∈ evs, a.id = v ∧ a.hasEventUnder = true) →
      (∀ k, k < evs.length → (evs.getD k default).hasEventUnder = true → k < i) →
      (((guLoop evs under start i).2.map fun e => e.topEventId)).Nodup := by
  have hcore : CoreProj WEvent.id := fun e1 e2 h1 _ _ => h1
  intro n
  induction n with
  | zero =>
    intro evs under start i hn hA1 hA2 hA3 hA4
    rw [guLoop, dif_neg (by omega)]
    exact hA2
  | succ n ih =>
    intro evs under start i hn hA1 hA2 hA3 hA4
    by_cases h : i < evs.length
    case neg =>
      rw [guLoop, dif_neg h]
      exact hA2
    case pos =>
      rw [guLoop, dif_pos h]
      by_cases hg : getLeftCollisionsCount (evs.get ⟨i, h⟩).collisions i ≠ 0
      case pos =>
        cases hfs : findLeftSlot evs (evs.get ⟨i, h⟩) start i with
        | some j =>
          simp only [if_pos hg, hfs]
          obtain ⟨hj1, hj2, hj3, hj4⟩ := findLeftSlot_some evs (evs.get ⟨i, h⟩) start i j hfs
          have hjl : j < evs.length := by omega
          have hXlen : ((evs.eraseIdx i).set j ({ id := (evs.getD j default).id, start := (evs.getD j default).start, stop := (evs.getD j default).stop, collisions := (evs.getD j default).collisions, left := (evs.getD j default).left, width := (evs.getD j default).width, hasEventUnder := true, topEventId := (evs.getD j default).topEventId } : WEvent)).length = evs.length - 1 := by
            rw [List.length_set, List.length_eraseIdx_of_lt h]
          refine ih _ _ start i ?_ ?_ ?_ ?_ ?_
          · rw [length_updateCollisions, hXlen]; omega
          · rw [map_core_updateCollisions WEvent.id hcore, List.map_set, map_eraseIdx,
              show WEvent.id ({ id := (evs.getD j default).id, start := (evs.getD j default).start, stop := (evs.getD j default).stop, collisions := (evs.getD j default).collisions, left := (evs.getD j default).left, width := (evs.getD j default).width, hasEventUnder := true, topEventId := (evs.getD j default).topEventId } : WEvent)
                  = ((evs.map WEvent.id).eraseIdx i).getD j (WEvent.id default) from by
                rw [show WEvent.id ({ id := (evs.getD j default).id, start := (evs.getD j default).start, stop := (evs.getD j default).stop, collisions := (evs.getD j default).collisions, left := (evs.getD j default).left, width := (evs.getD j default).width, hasEventUnder := true, topEventId := (evs.getD j default).topEventId } : WEvent) = WEvent.id (evs.getD j default) from rfl,
                  ← List.getD_map evs default WEvent.id,
                  getD_eraseIdx_of_lt _ _ _ _ hj2 (by simpa using h)],
              set_getD_self]
            exact List.Nodup.sublist (List.eraseIdx_sublist _ _) hA1
          · rw [List.map_append, List.map_cons, List.map_nil, List.nodup_append]
            refine ⟨hA2, List.nodup_singleton _, ?_⟩
            intro x hx hx2
            simp only [List.mem_singleton] at hx2
            subst hx2
            obtain ⟨u, hu, hutop⟩ := List.mem_map.mp hx
            obtain ⟨v, hv, a, hamem, haid, haflag⟩ := hA3 u hu
            have hvv : v = (evs.getD j default).id := by
              rw [hv] at hutop
              exact Option.some.inj hutop
            have hjmem : evs.getD j default ∈ evs := by
              rw [List.getD_eq_getElem _ _ hjl]
              exact List.getElem_mem _
            have hae : a = evs.getD j default :=
              List.inj_on_of_nodup_map hA1 hamem hjmem (by rw [haid, hvv])
            rw [hae] at haflag
            rw [haflag] at hj4
            exact absurd hj4 (by decide)
          · intro u hu
            rcases List.mem_append.mp hu with hu1 | hu2
            · obtain ⟨v, hv, a, hamem, haid, haflag⟩ := hA3 u hu1
              obtain ⟨ka, hka, hkae⟩ := List.mem_iff_getElem.mp hamem
              have hkai : ka < i := hA4 ka hka (by
                rw [List.getD_eq_getElem _ _ hka, hkae]; exact haflag)
              have hkaj : ka ≠ j := by
                intro hh
                rw [← hh, List.getD_eq_getElem _ _ hka, hkae, haflag] at hj4
                exact absurd hj4 (by decide)
              have hka2 : ka < ((evs.eraseIdx i).set j ({ id := (evs.getD j default).id, start := (evs.getD j default).start, stop := (evs.getD j default).stop, collisions := (evs.getD j default).collisions, left := (evs.getD j default).left, width := (evs.getD j default).width, hasEventUnder := true, topEventId := (evs.getD j default).topEventId } : WEvent)).length := by
                rw [hXlen]; omega
              have hka3 : ka < (updateCollisions
                  ((evs.eraseIdx i).set j ({ id := (evs.getD j default).id, start := (evs.getD j default).start, stop := (evs.getD j default).stop, collisions := (evs.getD j default).collisions, left := (evs.getD j default).left, width := (evs.getD j default).width, hasEventUnder := true, topEventId := (evs.getD j default).topEventId } : WEvent))).length := by
                rw [length_updateCollisions]; exact hka2
              refine ⟨v, hv, (updateCollisions
                ((evs.eraseIdx i).set j ({ id := (evs.getD j default).id, start := (evs.getD j default).start, stop := (evs.getD j default).stop, collisions := (evs.getD j default).collisions, left := (evs.getD j default).left, width := (evs.getD j default).width, hasEventUnder := true, topEventId := (evs.getD j default).topEventId } : WEvent))).getD ka default, ?_, ?_, ?_⟩
              · rw [List.getD_eq_getElem _ _ hka3]
                exact List.getElem_mem _
              · rw [updateCollisions_getD _ ka hka2]
                show (((evs.eraseIdx i).set j ({ id := (evs.getD j default).id, start := (evs.getD j default).start, stop := (evs.getD j default).stop, collisions := (evs.getD j default).collisions, left := (evs.getD j default).left, width := (evs.getD j default).width, hasEventUnder := true, topEventId := (evs.getD j default).topEventId } : WEvent)).getD ka default).id = v
                rw [getD_set_ne _ _ _ _ (fun hh => hkaj hh.symm),
                  getD_eraseIdx_lt_w _ _ _ hkai h, List.getD_eq_getElem _ _ hka, hkae]
                exact haid
              · rw [updateCollisions_getD _ ka hka2]
                show (((evs.eraseIdx i).set j
                  ({ id := (evs.getD j default).id, start := (evs.getD j default).start, stop := (evs.getD j default).stop, collisions := (evs.getD j default).collisions, left := (evs.getD j default).left, width := (evs.getD j default).width, hasEventUnder := true, topEventId := (evs.getD j default).topEventId } : WEvent)).getD ka default).hasEventUnder = true
                rw [getD_set_ne _ _ _ _ (fun hh => hkaj hh.symm),
                  getD_eraseIdx_lt_w _ _ _ hkai h, List.getD_eq_getElem _ _ hka, hkae]
                exact haflag
            · simp only [List.mem_singleton] at hu2
              subst hu2
              have hj5 : j < ((evs.eraseIdx i).set j ({ id := (evs.getD j default).id, start := (evs.getD j default).start, stop := (evs.getD j default).stop, collisions := (evs.getD j default).collisions, left := (evs.getD j default).left, width := (evs.getD j default).width, hasEventUnder := true, topEventId := (evs.getD j default).topEventId } : WEvent)).length := by
                rw [hXlen]; omega
              have hj6 : j < (updateCollisions
                  ((evs.eraseIdx i).set j ({ id := (evs.getD j default).id, start := (evs.getD j default).start, stop := (evs.getD j default).stop, collisions := (evs.getD j default).collisions, left := (evs.getD j default).left, width := (evs.getD j default).width, hasEventUnder := true, topEventId := (evs.getD j default).topEventId } : WEvent))).length := by
                rw [length_updateCollisions]; exact hj5
              refine ⟨(evs.getD j default).id, rfl, (updateCollisions
                ((evs.eraseIdx i).set j ({ id := (evs.getD j default).id, start := (evs.getD j default).start, stop := (evs.getD j default).stop, collisions := (evs.getD j default).collisions, left := (evs.getD j default).left, width := (evs.getD j default).width, hasEventUnder := true, topEventId := (evs.getD j default).topEventId } : WEvent))).getD j default, ?_, ?_, ?_⟩
              · rw [List.getD_eq_getElem _ _ hj6]
                exact List.getElem_mem _
              · rw [updateCollisions_getD _ j hj5]
                show (((evs.eraseIdx i).set j ({ id := (evs.getD j default).id, start := (evs.getD j default).start, stop := (evs.getD j default).stop, collisions := (evs.getD j default).collisions, left := (evs.getD j default).left, width := (evs.getD j default).width, hasEventUnder := true, topEventId := (evs.getD j default).topEventId } : WEvent)).getD j default).id
                  = (evs.getD j default).id
                rw [getD_set_self _ _ _ (by rw [List.length_eraseIdx_of_lt h]; omega)]
              · rw [updateCollisions_getD _ j hj5]
                show (((evs.eraseIdx i).set j
                  ({ id := (evs.getD j default).id, start := (evs.getD j default).start, stop := (evs.getD j default).stop, collisions := (evs.getD j default).collisions, left := (evs.getD j default).left, width := (evs.getD j default).width, hasEventUnder := true, topEventId := (evs.getD j default).topEventId } : WEvent)).getD j default).hasEventUnder = true
                rw [getD_set_self _ _ _ (by rw [List.length_eraseIdx_of_lt h]; omega)]
          · intro k hk hflag
            have hk2 : k < ((evs.eraseIdx i).set j ({ id := (evs.getD j default).id, start := (evs.getD j default).start, stop := (evs.getD j default).stop, collisions := (evs.getD j default).collisions, left := (evs.getD j default).left, width := (evs.getD j default).width, hasEventUnder := true, topEventId := (evs.getD j default).topEventId } : WEvent)).length := by
              rw [length_updateCollisions] at hk; exact hk
            rw [updateCollisions_getD _ k hk2] at hflag
            have hflag2 : (((evs.eraseIdx i).set j
                ({ id := (evs.getD j default).id, start := (evs.getD j default).start, stop := (evs.getD j default).stop, collisions := (evs.getD j default).collisions, left := (evs.getD j default).left, width := (evs.getD j default).width, hasEventUnder := true, topEventId := (evs.getD j default).topEventId } : WEvent)).getD k default).hasEventUnder = true := hflag
            by_cases hkj : k = j
            · omega
            · rw [getD_set_ne _ _ _ _ (fun hh => hkj hh.symm)] at hflag2
              by_cases hki : k < i
              · exact hki
              · rw [getD_eraseIdx_ge_w _ _ _ (by omega) (by
                  rw [hXlen] at hk2; omega)] at hflag2
                have := hA4 (k + 1) (by rw [hXlen] at hk2; omega) hflag2
                omega
        | none =>
          simp only [if_pos hg, hfs]
          exact ih evs under start (i + 1) (by omega) hA1 hA2 hA3
            (fun k hk hf => by have := hA4 k hk hf; omega)
      case neg =>
        simp only [if_neg hg]
        exact ih evs under i (i + 1) (by omega) hA1 hA2 hA3
          (fun k hk hf => by have := hA4 k hk hf; omega)

theorem findGroup_eq_none_iff (gs : List (Option Int × EGroup)) (k : Option Int) :
    findGroup gs k = none ↔ ∀ p ∈ gs, p.1 ≠ k := by
  unfold findGroup
  simp [List.find?_eq_none]

theorem setGroup_absent (gs : List (Option Int × EGroup)) (k : Option Int) (g : EGroup)
    (hnone : ∀ p ∈ gs, p.1 ≠ k) : setGroup gs k g = gs ++ [(k, g)] := by
  unfold setGroup
  have hany : gs.any (fun p => p.1 == k) = false := by
    rw [List.any_eq_false]
    intro p hp
    simpa using hnone p hp
  rw [if_neg (by simp only [hany]; exact Bool.false_ne_true)]

theorem find?_append_key (k : Option Int) (g : EGroup) :
    ∀ (gs : List (Option Int × EGroup)), (∀ p ∈ gs, p.1 ≠ k) →
      List.find? (fun p => p.1 == k) (gs ++ [(k, g)]) = some (k, g) := by
  intro gs
  induction gs with
  | nil => intro _; simp
  | cons q t ih =>
    intro hnone
    have hq : (q.1 == k) = false := by
      simpa using hnone q (List.mem_cons_self _ _)
    rw [List.cons_append, List.find?_cons, hq]
    exact ih fun p hp => hnone p (List.mem_cons_of_mem _ hp)

theorem findGroup_append_self (gs : List (Option Int × EGroup)) (k : Option Int) (g : EGroup)
    (hnone : ∀ p ∈ gs, p.1 ≠ k) : findGroup (gs ++ [(k, g)]) k = some g := by
  unfold findGroup
  rw [find?_append_key k g gs hnone]
  rfl

theorem setGroup_append_self (gs : List (Option Int × EGroup)) (k : Option Int) (a b : EGroup)
    (hnone : ∀ p ∈ gs, p.1 ≠ k) : setGroup (gs ++ [(k, a)]) k b = gs ++ [(k, b)] := by
  unfold setGroup
  rw [if_pos (by simp)]
  rw [List.map_append]
  have h1 : (gs.map fun p => if p.1 == k then (k, b) else p) = gs := by
    have h2 : ∀ p ∈ gs, (if p.1 == k then (k, b) else p) = p := by
      intro p hp
      rw [if_neg (by simpa using hnone p hp)]
    calc (gs.map fun p => if p.1 == k then (k, b) else p) = gs.map id := List.map_congr_left h2
      _ = gs := List.map_id gs
  rw [h1]
  simp

theorem peuStep_eq (under evs : List WEvent) (groups : List (Option Int × EGroup))
    (i : Nat) (event : WEvent)
    (habs : findGroup groups event.topEventId = none) :
    ∃ gf : EGroup, gf.itemIdxs = [i] ∧
      peuStep under evs groups i event = groups ++ [(event.topEventId, gf)] := by
  have hnone := (findGroup_eq_none_iff _ _).mp habs
  unfold peuStep
  simp only [habs, Option.isNone_none, if_true]
  rw [setGroup_absent groups event.topEventId _ hnone,
    findGroup_append_self groups event.topEventId _ hnone]
  simp only [Option.getD_some]
  rw [setGroup_append_self groups event.topEventId _ _ hnone]
  split
  · rw [setGroup_append_self groups event.topEventId _ _ hnone]
    exact ⟨_, rfl, rfl⟩
  · exact ⟨_, rfl, rfl⟩

theorem getEventsUnder_top_nodup (l : List IEvent) (hnd : (l.map IEvent.id).Nodup) :
    (((getEventsUnder (updateCollisions (sortEvents (cloneEvents (l.map some))))).2.map
      fun e => e.topEventId)).Nodup := by
  have hcore : CoreProj WEvent.id := fun e1 e2 h1 _ _ => h1
  have hA1 : ((updateCollisions (sortEvents (cloneEvents (l.map some)))).map WEvent.id).Nodup := by
    rw [map_core_updateCollisions WEvent.id hcore]
    have hperm : ((sortEvents (cloneEvents (l.map some))).map WEvent.id).Perm
        ((cloneEvents (l.map some)).map WEvent.id) :=
      (List.mergeSort_perm _ eventLE).map WEvent.id
    rw [cloneEvents_map_id] at hperm
    exact hperm.nodup_iff.mpr hnd
  have hA4 : ∀ k, k < (updateCollisions (sortEvents (cloneEvents (l.map some)))).length →
      ((updateCollisions (sortEvents (cloneEvents (l.map some)))).getD k
        default).hasEventUnder = true → k < 0 := by
    intro k hk hflag
    exfalso
    have hk2 : k < (sortEvents (cloneEvents (l.map some))).length := by
      rw [length_updateCollisions] at hk
      exact hk
    rw [updateCollisions_getD _ k hk2] at hflag
    have hflag2 : ((sortEvents (cloneEvents (l.map some))).getD k
        default).hasEventUnder = true := hflag
    have hmem : (sortEvents (cloneEvents (l.map some))).getD k default ∈
        sortEvents (cloneEvents (l.map some)) := by
      rw [List.getD_eq_getElem _ _ hk2]
      exact List.getElem_mem _
    have hmem2 := (List.mergeSort_perm (cloneEvents (l.map some)) eventLE).subset hmem
    rw [cloneEvents_flags _ _ hmem2] at hflag2
    exact absurd hflag2 (by decide)
  have hmain := guLoop_top_nodup (2 * (updateCollisions
      (sortEvents (cloneEvents (l.map some)))).length)
    (updateCollisions (sortEvents (cloneEvents (l.map some)))) [] 0 0
    (by omega) hA1 (by simp) (by simp) hA4
  unfold getEventsUnder
  by_cases hc : (guLoop (updateCollisions (sortEvents (cloneEvents (l.map some)))) [] 0 0).2.length ≠ 0
  · simp only [if_pos hc]
    rw [map_top_updateCollisions]
    exact hmain
  · simp only [if_neg hc]
    exact hmain

theorem peuGroupsGo_singleton (under evs : List WEvent)
    (hnd : ((under.map fun e => e.topEventId)).Nodup) :
    ∀ (n i : Nat) (groups : List (Option Int × EGroup)), under.length - i ≤ n →
      (∀ entry ∈ groups, entry.2.itemIdxs.length = 1) →
      (∀ entry ∈ groups, ∃ m, m < i ∧ m < under.length ∧
        (under.getD m default).topEventId = entry.1) →
      ∀ entry ∈ peuGroupsGo under evs i groups, entry.2.itemIdxs.length = 1 := by
  intro n
  induction n with
  | zero =>
    intro i groups hn h1 h2
    rw [peuGroupsGo, dif_neg (by omega)]
    exact h1
  | succ n ih =>
    intro i groups hn h1 h2
    by_cases h : i < under.length
    case neg =>
      rw [peuGroupsGo, dif_neg h]
      exact h1
    case pos =>
      rw [peuGroupsGo, dif_pos h]
      have habs : findGroup groups (under.get ⟨i, h⟩).topEventId = none := by
        rw [findGroup_eq_none_iff]
        intro p hp hpk
        obtain ⟨m, hm1, hm2, hm3⟩ := h2 p hp
        have hm2m : m < (under.map fun e => e.topEventId).length := by simpa using hm2
        have him : i < (under.map fun e => e.topEventId).length := by simpa using h
        have hgm : (under.map fun e => e.topEventId)[m]
            = (under.map fun e => e.topEventId)[i] := by
          rw [List.getElem_map, List.getElem_map, ← List.getD_eq_getElem under default hm2,
            hm3, hpk]
          rfl
        have := (List.Nodup.getElem_inj_iff hnd).mp hgm
        omega
      obtain ⟨gf, hgf, heq⟩ := peuStep_eq under evs groups i (under.get ⟨i, h⟩) habs
      rw [heq]
      refine ih (i + 1) (groups ++ [((under.get ⟨i, h⟩).topEventId, gf)]) (by omega) ?_ ?_
      · intro entry hentry
        rcases List.mem_append.mp hentry with he1 | he2
        · exact h1 entry he1
        · simp only [List.mem_singleton] at he2
          rw [he2, hgf]
          rfl
      · intro entry hentry
        rcases List.mem_append.mp hentry with he1 | he2
        · obtain ⟨m, hm1, hm2, hm3⟩ := h2 entry he1
          exact ⟨m, by omega, hm2, hm3⟩
        · simp only [List.mem_singleton] at he2
          rw [he2]
          exact ⟨i, by omega, h, by rw [List.getD_eq_getElem _ _ h]; exact rfl⟩

/-- C9: in a run of `layOutDay` on well-formed events with distinct ids, once
a primary event has an event nested under it it is never chosen again: every
`topEventId` value occurs at most once in the under array produced by
`getEventsUnder`, and every Column Group built by `processEventsUnder`
contains exactly one item. -/
theorem getEventsUnder_nesting_unique (l : List IEvent) (_hwf : ∀ e ∈ l, wellFormed e)
    (hnd : (l.map IEvent.id).Nodup) :
    (((getEventsUnder (updateCollisions (sortEvents (cloneEvents (l.map some))))).2.map
      fun e => e.topEventId)).Nodup ∧
    ∀ entry ∈ peuGroups
        (getEventsUnder (updateCollisions (sortEvents (cloneEvents (l.map some))))).2
        (setLayOutParams
          (getEventsUnder (updateCollisions (sortEvents (cloneEvents (l.map some))))).1
          10 620),
      entry.2.itemIdxs.length = 1 := by
  have htop := getEventsUnder_top_nodup l hnd
  refine ⟨htop, ?_⟩
  unfold peuGroups
  exact peuGroupsGo_singleton _ _ htop
    ((getEventsUnder (updateCollisions (sortEvents (cloneEvents (l.map some))))).2.length)
    0 [] (by omega) (by simp) (by simp)

/-- Witness for C9 at a three-event input that produces one nested event. -/
theorem getEventsUnder_nesting_unique_witness :
    (((getEventsUnder (updateCollisions (sortEvents (cloneEvents
      ([(⟨1, 0, 60⟩ : IEvent), ⟨2, 0, 30⟩, ⟨3, 30, 60⟩].map some))))).2.map
      fun e => e.topEventId)).Nodup ∧
    ∀ entry ∈ peuGroups
        (getEventsUnder (updateCollisions (sortEvents (cloneEvents
          ([(⟨1, 0, 60⟩ : IEvent), ⟨2, 0, 30⟩, ⟨3, 30, 60⟩].map some))))).2
        (setLayOutParams
          (getEventsUnder (updateCollisions (sortEvents (cloneEvents
            ([(⟨1, 0, 60⟩ : IEvent), ⟨2, 0, 30⟩, ⟨3, 30, 60⟩].map some))))).1
          10 620),
      entry.2.itemIdxs.length = 1 :=
  getEventsUnder_nesting_unique [⟨1, 0, 60⟩, ⟨2, 0, 30⟩, ⟨3, 30, 60⟩]
    (by decide) (by decide)
